import Mathlib

/-!
# Verification of the PermutationImportance selection core

Shallow embedding of `src/sequential_selection.py` and `src/utils.py`:
Python dicts are insertion-ordered association lists, scores are rationals,
fallible operations return `Option`/`Except`.  Mutable state (the result
list drained by the ranking loop, the important-variable history) is
threaded explicitly.
-/

namespace PermImp

/-- A Python `dict` is modelled as an insertion-ordered association list
(a dict cannot hold a key twice, and every list built by `dictInsert` from
`[]` has distinct keys).  `d[k] = v` keeps the position of an existing key
and updates its value, and appends a fresh key at the end. -/
def dictInsert {K V : Type} [DecidableEq K] : List (K × V) → K → V → List (K × V)
  | [], k, v => [(k, v)]
  | p :: rest, k, v => if p.1 = k then (k, v) :: rest else p :: dictInsert rest k v

/-- Python `d[k]` lookup (first entry with the key; a dict has unique keys). -/
def dictGet {K V : Type} [DecidableEq K] : List (K × V) → K → Option V
  | [], _ => none
  | p :: rest, k => if p.1 = k then some p.2 else dictGet rest k

/-- Python `list.pop(i)` for a non-negative index: the removed element and
the remaining list; `none` is the `IndexError`. -/
def listPop {α : Type} (l : List α) (i : Nat) : Option (α × List α) :=
  match l[i]? with
  | none => none
  | some x => some (x, l.eraseIdx i)

/-- Exceptions the embedded code can raise, plus the spec's (§7)
`Exhausted-Candidates` error.  The source never raises the latter; the
constructor is present so that error-handling claims mentioning it are
statable. -/
inductive Err where
  | keyError (k : Nat)
  | indexError
  | valueError (msg : String)
  | exhaustedCandidates
deriving Repr, DecidableEq

/-- `np.argmin`: index of the first minimal element (0 on the empty list,
where numpy errors; the embedded code never calls it on an empty list). -/
def argminQAux : List ℚ → Nat → Nat → ℚ → Nat
  | [], _, bi, _ => bi
  | x :: xs, i, bi, bv =>
      if x < bv then argminQAux xs (i + 1) i x else argminQAux xs (i + 1) bi bv

/-- `np.argmin` on a list of rationals. -/
def argminQ : List ℚ → Nat
  | [] => 0
  | x :: xs => argminQAux xs 1 0 x

/-- The `while len(result) > 1` loop of `convert_result_list_to_dict`
(src/utils.py lines 25-31) together with the final `result[0]` assignment:
`pool` is the current state of the (mutated) `result` list, `rank` the next
rank to hand out, `acc` the `result_dict` built so far and `calls` counts
the invocations of `scoring_strategy`.  Returns the final `result_dict`,
the final state of the caller's list, and the call count; `none` models an
uncaught `IndexError`.  `fuel` bounds the recursion; the entry point passes
the list length, which always suffices. -/
def rankLoop (strat : List ℚ → Nat) (names : List String) :
    Nat → List (Nat × ℚ) → Nat → List (String × Nat × ℚ) → Nat →
    Option (List (String × Nat × ℚ) × List (Nat × ℚ) × Nat)
  | 0, _, _, _, _ => none
  | fuel + 1, pool, rank, acc, calls =>
    if 1 < pool.length then
      match listPop pool (strat (pool.map (fun q => q.2))) with
      | none => none
      | some ((var, score), pool') =>
        match names[var]? with
        | none => none
        | some name =>
            rankLoop strat names fuel pool' (rank + 1)
              (dictInsert acc name (rank, score)) (calls + 1)
    else
      match pool with
      | [] => none
      | (var, score) :: rest =>
        match names[var]? with
        | none => none
        | some name => some (dictInsert acc name (rank, score), (var, score) :: rest, calls)

/-- `convert_result_list_to_dict` (src/utils.py lines 12-32), instrumented:
returns the produced dict together with the final state of the caller's
`result` list and the number of comparator invocations.  The empty input
returns the empty dict before the loop, leaving the list untouched. -/
def convertFull (result : List (Nat × ℚ)) (names : List String)
    (strat : List ℚ → Nat) :
    Option (List (String × Nat × ℚ) × List (Nat × ℚ) × Nat) :=
  if result.length = 0 then some ([], result, 0)
  else rankLoop strat names result.length result 0 [] 0

/-- `convert_result_list_to_dict` (src/utils.py lines 12-32): the dict of
`variable_names[var] ↦ (rank, score)` produced by repeatedly asking the
comparator for the best remaining entry. -/
def convert_result_list_to_dict (result : List (Nat × ℚ)) (names : List String)
    (strat : List ℚ → Nat) : Option (List (String × Nat × ℚ)) :=
  (convertFull result names strat).map (fun t => t.1)

/-- `np.average` of a list of scores: the arithmetic mean, sum divided by
count. -/
def npAverage (l : List ℚ) : ℚ := l.sum / l.length

/-- `_singlethread_iteration` (src/sequential_selection.py lines 106-120):
one pass over the selection iterator's (variable, training, scoring)
triples, scoring each and storing the score under the variable. -/
def _singlethread_iteration {D : Type} (selection_iterator : List (Nat × D × D))
    (scoring_fn : D → D → ℚ) : List (Nat × ℚ) :=
  selection_iterator.foldl
    (fun result t => dictInsert result t.1 (scoring_fn t.2.1 t.2.2)) []

/-- The (variable, score) pairs the scoring engine computes: `scoring_fn`
invoked exactly once per triple of the iterator. -/
def scoredPairs {D : Type} (selection_iterator : List (Nat × D × D))
    (scoring_fn : D → D → ℚ) : List (Nat × ℚ) :=
  selection_iterator.map (fun t => (t.1, scoring_fn t.2.1 t.2.2))

/-- The result-queue drain of `_multithread_iteration`
(src/sequential_selection.py lines 142-146): the `(var, score)` pairs are
taken off the out-queue one at a time and written into the result dict.
`arrival` is the order in which the worker results sit on the queue; OS
scheduling is abstracted, so an execution of the multi-process engine is
this drain applied to any permutation of the once-per-triple scored pairs. -/
def drainOutQueue (arrival : List (Nat × ℚ)) : List (Nat × ℚ) :=
  arrival.foldl (fun result p => dictInsert result p.1 p.2) []

/-- The bootstrap-merge block of `sequential_selection`
(src/sequential_selection.py lines 91-97): the first pass initialises
`result[var] = [score]`, later passes do `result[var].append(score)`,
raising `KeyError` when a later pass brings a variable the first pass did
not. -/
def mergeOne (result : List (Nat × List ℚ)) (result_i : List (Nat × ℚ)) :
    Except Err (List (Nat × List ℚ)) :=
  if result.length = 0 then
    .ok (result_i.foldl (fun acc p => dictInsert acc p.1 [p.2]) [])
  else
    result_i.foldlM (fun acc p =>
      match dictGet acc p.1 with
      | none => .error (.keyError p.1)
      | some l => .ok (dictInsert acc p.1 (l ++ [p.2]))) result

/-- The `for i in range(nbootstrap)` loop of `sequential_selection`
(src/sequential_selection.py lines 76-97) for the `njobs == 1` path:
`pass_result i` is the score map of bootstrap pass `i`. -/
def collectBootstrapsAux (pass_result : Nat → List (Nat × ℚ)) :
    Nat → Nat → List (Nat × List ℚ) → Except Err (List (Nat × List ℚ))
  | _, 0, result => .ok result
  | i, n + 1, result =>
    match mergeOne result (pass_result i) with
    | .error e => .error e
    | .ok result' => collectBootstrapsAux pass_result (i + 1) n result'

/-- Scores of one round collected over all bootstrap passes, each pass
being a fresh strategy instance fed to the single-process engine. -/
def collectBootstraps {D : Type}
    (selection_strategy : List Nat → Nat → List (Nat × D × D))
    (scoring_fn : D → D → ℚ) (important_vars : List Nat) (nbootstrap : Nat) :
    Except Err (List (Nat × List ℚ)) :=
  collectBootstrapsAux
    (fun i => _singlethread_iteration (selection_strategy important_vars i) scoring_fn)
    0 nbootstrap []

/-- Modelled from the spec: `add_ranks_to_dict` is imported by
sequential_selection.py from src.utils, but its definition is not among the
repository's files.  Per spec §4.3 the Ranking Aggregator turns a score map
into a rank map by the same selection-sort-by-comparator algorithm that
`convert_result_list_to_dict` implements on a result list (resolving
variable indices through the variable names), so it is modelled as that
function applied to the score dict's items. -/
def add_ranks_to_dict (avg_result : List (Nat × ℚ)) (names : List String)
    (strat : List ℚ → Nat) : Option (List (String × Nat × ℚ)) :=
  convert_result_list_to_dict avg_result names strat

/-- The scan of `min(next_result.keys(), key=lambda key: next_result[key][0])`:
Python's `min` keeps the first encountered entry on ties. -/
def pyMinAux : List (String × Nat × ℚ) → String → Nat → String
  | [], bk, _ => bk
  | (k, r, _) :: rest, bk, br =>
      if r < br then pyMinAux rest k r else pyMinAux rest bk br

/-- `min(next_result.keys(), key=...)` over a rank map (the `[0]` of each
value is its rank, unique per key in a dict); `none` is the
`ValueError` Python's `min` raises on an empty sequence. -/
def pyMinByRank : List (String × Nat × ℚ) → Option String
  | [] => none
  | (k, r, _) :: rest => some (pyMinAux rest k r)

/-- `np.flatnonzero(variable_names == best_var)[0]`: the first index whose
name equals the winner, `none` the `IndexError` when there is none. -/
def flatnonzeroFirst : List String → String → Option Nat
  | [], _ => none
  | nm :: rest, target =>
      if nm = target then some 0
      else (flatnonzeroFirst rest target).map (fun i => i + 1)

/-- One iteration of the `for _ in range(nimportant_vars)` loop of
`sequential_selection` (src/sequential_selection.py lines 73-101), on the
`njobs == 1` path.  The state is the pair (important_vars history, list of
(rank map, winner) results accumulated so far).  Scores are collected over
the bootstrap passes, averaged per variable, the averaged map is ranked by
the Ranking Aggregator, `min` by rank picks the winning variable
(`ValueError` on an empty rank map), `flatnonzero` locates its index
(`IndexError` when absent), and winner and rank map are appended. -/
def roundStep {D : Type}
    (selection_strategy : List Nat → Nat → List (Nat × D × D))
    (scoring_fn : D → D → ℚ) (strat : List ℚ → Nat) (names : List String)
    (nbootstrap : Nat)
    (st : List Nat × List (List (String × Nat × ℚ) × String)) :
    Except Err (List Nat × List (List (String × Nat × ℚ) × String)) :=
  match collectBootstraps selection_strategy scoring_fn st.1 nbootstrap with
  | .error e => .error e
  | .ok result =>
    match add_ranks_to_dict (result.map (fun p => (p.1, npAverage p.2))) names strat with
    | none => .error .indexError
    | some next_result =>
      match pyMinByRank next_result with
      | none => .error (.valueError "min() arg is an empty sequence")
      | some best_var =>
        match flatnonzeroFirst names best_var with
        | none => .error .indexError
        | some best_index =>
            .ok (st.1 ++ [best_index], st.2 ++ [(next_result, best_var)])

/-- The `for _ in range(nimportant_vars)` loop of `sequential_selection`. -/
def selectionRounds {D : Type}
    (selection_strategy : List Nat → Nat → List (Nat × D × D))
    (scoring_fn : D → D → ℚ) (strat : List ℚ → Nat) (names : List String)
    (nbootstrap : Nat) :
    Nat → (List Nat × List (List (String × Nat × ℚ) × String)) →
    Except Err (List Nat × List (List (String × Nat × ℚ) × String))
  | 0, st => .ok st
  | n + 1, st =>
    match roundStep selection_strategy scoring_fn strat names nbootstrap st with
    | .error e => .error e
    | .ok st' => selectionRounds selection_strategy scoring_fn strat names nbootstrap n st'

/-- `sequential_selection` (src/sequential_selection.py lines 18-103) on the
`njobs == 1` path: baseline scoring over the zero-candidate datasets
(abstracted as the pair `baseline`, produced by the external
`generate_datasets([])`), then the round loop starting from an empty
history.  Data verification, name resolution and the result container are
external collaborators; the returned triple is (original_score, important
variable history, accumulated (rank map, winner) results). -/
def sequential_selection {D : Type}
    (selection_strategy : List Nat → Nat → List (Nat × D × D))
    (scoring_fn : D → D → ℚ) (strat : List ℚ → Nat) (names : List String)
    (nimportant_vars nbootstrap : Nat) (baseline : D × D) :
    Except Err (ℚ × List Nat × List (List (String × Nat × ℚ) × String)) :=
  let original_score := scoring_fn baseline.1 baseline.2
  match selectionRounds selection_strategy scoring_fn strat names nbootstrap
      nimportant_vars ([], []) with
  | .error e => .error e
  | .ok st => .ok (original_score, st)

/-- Modelled from the spec: `SequentialForwardSelectionStrategy`
(src.selection_strategies, imported by sequential_selection.py but not
among the repository's files).  Spec §3: "candidate pool for round k is
exactly variable registry minus (forward) history"; each candidate variable
yields one (variable, training-subset, scoring-subset) triple, the data
slicing being external and abstracted as `mk` (a function of the variable
and the bootstrap index). -/
def forwardStrategy {D : Type} (num_vars : Nat) (mk : Nat → Nat → D × D)
    (important_vars : List Nat) (i : Nat) : List (Nat × D × D) :=
  ((List.range num_vars).filter (fun v => !(important_vars.contains v))).map
    (fun v => (v, (mk v i).1, (mk v i).2))

/-- The worker-count resolution of src/sequential_selection.py line 64:
`njobs = mp.cpu_count() + njobs if njobs <= 0 else njobs`, the host
concurrency `mp.cpu_count()` being a parameter. -/
def resolve_njobs (cpu_count : Nat) (njobs : Int) : Int :=
  if njobs ≤ 0 then (cpu_count : Int) + njobs else njobs

/-! ### Association-list dictionary lemmas -/

theorem dictInsert_of_not_mem {K V : Type} [DecidableEq K] {d : List (K × V)}
    {k : K} (v : V) (h : k ∉ d.map Prod.fst) : dictInsert d k v = d ++ [(k, v)] := by
  induction d with
  | nil => rfl
  | cons p rest ih =>
      simp only [List.map_cons, List.mem_cons] at h
      push_neg at h
      have hne : ¬ p.1 = k := fun hc => h.1 hc.symm
      simp only [dictInsert, if_neg hne, List.cons_append, ih h.2]

theorem keys_dictInsert {K V : Type} [DecidableEq K] (d : List (K × V))
    (k : K) (v : V) (a : K) :
    a ∈ (dictInsert d k v).map Prod.fst ↔ a ∈ d.map Prod.fst ∨ a = k := by
  induction d with
  | nil => simp [dictInsert]
  | cons p rest ih =>
      by_cases hp : p.1 = k
      · simp only [dictInsert, if_pos hp, List.map_cons, List.mem_cons]
        rw [hp]
        tauto
      · simp only [dictInsert, if_neg hp, List.map_cons, List.mem_cons, ih]
        tauto

theorem keysNodup_dictInsert {K V : Type} [DecidableEq K] {d : List (K × V)}
    (k : K) (v : V) (h : (d.map Prod.fst).Nodup) :
    ((dictInsert d k v).map Prod.fst).Nodup := by
  induction d with
  | nil => simp [dictInsert]
  | cons p rest ih =>
      simp only [List.map_cons, List.nodup_cons] at h
      by_cases hp : p.1 = k
      · have h1 : dictInsert (p :: rest) k v = (k, v) :: rest := by
          simp [dictInsert, if_pos hp]
        rw [h1, List.map_cons]
        exact List.nodup_cons.mpr ⟨hp ▸ h.1, h.2⟩
      · have h1 : dictInsert (p :: rest) k v = p :: dictInsert rest k v := by
          simp [dictInsert, if_neg hp]
        rw [h1, List.map_cons]
        refine List.nodup_cons.mpr ⟨?_, ih h.2⟩
        intro hmem
        rcases (keys_dictInsert rest k v p.1).mp hmem with hin | heq
        · exact h.1 hin
        · exact hp heq

theorem dictGet_dictInsert_self {K V : Type} [DecidableEq K] (d : List (K × V))
    (k : K) (v : V) : dictGet (dictInsert d k v) k = some v := by
  induction d with
  | nil => simp [dictInsert, dictGet]
  | cons p rest ih =>
      by_cases hp : p.1 = k
      · simp [dictInsert, if_pos hp, dictGet]
      · simp [dictInsert, if_neg hp, dictGet, hp, ih]

theorem dictGet_dictInsert_ne {K V : Type} [DecidableEq K] (d : List (K × V))
    (k : K) (v : V) (a : K) (ha : a ≠ k) :
    dictGet (dictInsert d k v) a = dictGet d a := by
  have hka : ¬ k = a := fun h => ha h.symm
  induction d with
  | nil => simp [dictInsert, dictGet, hka]
  | cons p rest ih =>
      by_cases hp : p.1 = k
      · have h1 : dictInsert (p :: rest) k v = (k, v) :: rest := by
          simp [dictInsert, if_pos hp]
        have hpa : ¬ p.1 = a := by rw [hp]; exact hka
        rw [h1]
        simp [dictGet, hka, hpa]
      · have h1 : dictInsert (p :: rest) k v = p :: dictInsert rest k v := by
          simp [dictInsert, if_neg hp]
        rw [h1]
        by_cases hpa : p.1 = a
        · simp [dictGet, hpa]
        · simp [dictGet, hpa, ih]

theorem dictGet_eq_none_iff {K V : Type} [DecidableEq K] (d : List (K × V))
    (k : K) : dictGet d k = none ↔ k ∉ d.map Prod.fst := by
  induction d with
  | nil => simp [dictGet]
  | cons p rest ih =>
      by_cases hp : p.1 = k
      · simp [dictGet, hp]
      · simp only [dictGet, if_neg hp, List.map_cons, List.mem_cons, ih]
        constructor
        · intro h hmem
          rcases hmem with h1 | h2
          · exact hp h1.symm
          · exact h h2
        · intro h h2
          exact h (Or.inr h2)

theorem mem_of_dictGet_eq_some {K V : Type} [DecidableEq K] {d : List (K × V)}
    {k : K} {v : V} (h : dictGet d k = some v) : (k, v) ∈ d := by
  induction d with
  | nil => simp [dictGet] at h
  | cons p rest ih =>
      by_cases hp : p.1 = k
      · simp only [dictGet, if_pos hp] at h
        have hv : p.2 = v := Option.some.inj h
        have hpkv : (k, v) = p := by
          obtain ⟨a, b⟩ := p
          simp only at hp hv
          rw [hp, hv]
        exact List.mem_cons.mpr (Or.inl hpkv)
      · simp only [dictGet, if_neg hp] at h
        exact List.mem_cons_of_mem _ (ih h)

theorem dictGet_eq_some_of_mem {K V : Type} [DecidableEq K] {d : List (K × V)}
    (hnd : (d.map Prod.fst).Nodup) {k : K} {v : V} (h : (k, v) ∈ d) :
    dictGet d k = some v := by
  induction d with
  | nil => simp at h
  | cons p rest ih =>
      simp only [List.map_cons, List.nodup_cons] at hnd
      rcases List.mem_cons.mp h with rfl | hmem
      · simp [dictGet]
      · have hne : p.1 ≠ k := by
          intro hp
          exact hnd.1 (hp ▸ List.mem_map_of_mem Prod.fst hmem)
        simp [dictGet, hne, ih hnd.2 hmem]

/-! ### `list.pop` lemmas -/

theorem listPop_eq_some {α : Type} {l : List α} {i : Nat} {x : α} {l' : List α}
    (h : listPop l i = some (x, l')) :
    l[i]? = some x ∧ l' = l.eraseIdx i := by
  cases hg : l[i]? with
  | none => simp [listPop, hg] at h
  | some y =>
      simp only [listPop, hg, Option.some.injEq, Prod.mk.injEq] at h
      exact ⟨by rw [h.1], h.2.symm⟩

theorem listPop_of_lt {α : Type} {l : List α} {i : Nat} (h : i < l.length) :
    ∃ x l', listPop l i = some (x, l') := by
  cases hg : l[i]? with
  | none =>
      have := List.getElem?_eq_none_iff.mp hg
      omega
  | some y => exact ⟨y, l.eraseIdx i, by simp [listPop, hg]⟩

theorem listPop_mem {α : Type} {l : List α} {i : Nat} {x : α} {l' : List α}
    (h : listPop l i = some (x, l')) : x ∈ l := by
  obtain ⟨hi, hx⟩ := List.getElem?_eq_some.mp (listPop_eq_some h).1
  exact hx ▸ List.getElem_mem hi

theorem listPop_length {α : Type} {l : List α} {i : Nat} {x : α} {l' : List α}
    (h : listPop l i = some (x, l')) : l'.length + 1 = l.length := by
  obtain ⟨hg, rfl⟩ := listPop_eq_some h
  exact List.length_eraseIdx_add_one (List.getElem?_eq_some.mp hg).1

/-- Decomposition of a successful pop: the list splits around the popped
element, and the remainder is the two outer parts. -/
theorem listPop_decomp {α : Type} {l : List α} {i : Nat} {x : α} {l' : List α}
    (h : listPop l i = some (x, l')) :
    l = l.take i ++ x :: l.drop (i + 1) ∧ l' = l.take i ++ l.drop (i + 1) := by
  obtain ⟨hg, rfl⟩ := listPop_eq_some h
  obtain ⟨hi, hx⟩ := List.getElem?_eq_some.mp hg
  refine ⟨?_, List.eraseIdx_eq_take_drop_succ l i⟩
  have hdrop : l.drop i = l[i] :: l.drop (i + 1) := List.drop_eq_getElem_cons hi
  nth_rewrite 1 [← List.take_append_drop i l]
  rw [hdrop, hx]

/-- Popping from a list with `Nodup` image keeps the image `Nodup` and the
popped element's image is no longer present. -/
theorem listPop_map_nodup {α β : Type} (f : α → β) {l : List α} {i : Nat}
    {x : α} {l' : List α} (h : listPop l i = some (x, l'))
    (hnd : (l.map f).Nodup) :
    (l'.map f).Nodup ∧ f x ∉ l'.map f := by
  obtain ⟨hdec, hrem⟩ := listPop_decomp h
  have hmap : l.map f = (l.take i).map f ++ f x :: (l.drop (i + 1)).map f := by
    conv_lhs => rw [hdec]
    simp
  have hmap' : l'.map f = (l.take i).map f ++ (l.drop (i + 1)).map f := by
    rw [hrem]; simp
  rw [hmap] at hnd
  have hperm : ((l.take i).map f ++ f x :: (l.drop (i + 1)).map f).Perm
      (f x :: ((l.take i).map f ++ (l.drop (i + 1)).map f)) :=
    List.perm_middle
  have hnd' := hperm.nodup hnd
  rw [List.nodup_cons] at hnd'
  exact ⟨hmap' ▸ hnd'.2, hmap' ▸ hnd'.1⟩

/-! ### `np.argmin` -/

theorem argminQAux_lt (xs : List ℚ) (i bi : Nat) (bv : ℚ) (h : bi < i) :
    argminQAux xs i bi bv < i + xs.length := by
  induction xs generalizing i bi bv with
  | nil => simpa [argminQAux] using Nat.lt_of_lt_of_le h (Nat.le_add_right i 0)
  | cons x xs ih =>
      simp only [argminQAux, List.length_cons]
      by_cases hx : x < bv
      · rw [if_pos hx]
        have := ih (i + 1) i x (Nat.lt_succ_self i)
        omega
      · rw [if_neg hx]
        have := ih (i + 1) bi bv (Nat.lt_succ_of_lt h)
        omega

/-- `np.argmin` returns a valid index on any non-empty list. -/
theorem argminQ_lt {l : List ℚ} (h : l ≠ []) : argminQ l < l.length := by
  cases l with
  | nil => exact absurd rfl h
  | cons x xs =>
      simp only [argminQ, List.length_cons]
      have := argminQAux_lt xs 1 0 x Nat.one_pos
      omega

/-! ### The ranking loop: the invariant of the selection-sort-by-comparator -/

/-- Core invariant of the ranking loop: starting from a non-empty pool with
enough fuel, a comparator that returns in-range indices, pairwise-distinct
resolvable variable names, and an accumulator whose keys avoid the pool's
names, the loop succeeds; it appends to the accumulator one entry per pool
element carrying the consecutive ranks `rank, rank+1, …`, each entry pairs a
pool variable's name with that variable's score, exactly one element is left
in the pool, and the comparator is consulted once per iteration (pool size
minus one times). -/
theorem rankLoop_spec (strat : List ℚ → Nat) (names : List String)
    (Hstrat : ∀ l : List ℚ, 1 < l.length → strat l < l.length) :
    ∀ (fuel : Nat) (pool : List (Nat × ℚ)) (rank : Nat)
      (acc : List (String × Nat × ℚ)) (calls : Nat),
      pool ≠ [] → pool.length ≤ fuel →
      (∀ q ∈ pool, ∃ nm, names[q.1]? = some nm) →
      pool.Pairwise (fun q q' => names[q.1]? ≠ names[q'.1]?) →
      (∀ q ∈ pool, ∀ p ∈ acc, names[q.1]? ≠ some p.1) →
      ∃ d fin calls',
        rankLoop strat names fuel pool rank acc calls
          = some (acc ++ d, fin, calls') ∧
        d.map (fun p => p.2.1) = List.range' rank pool.length ∧
        (∀ p ∈ d, ∃ q ∈ pool, names[q.1]? = some p.1 ∧ p.2.2 = q.2) ∧
        fin.length = 1 ∧ calls' = calls + (pool.length - 1) := by
  intro fuel
  induction fuel with
  | zero =>
      intro pool rank acc calls hne hlen _ _ _
      have := List.length_pos.mpr hne
      omega
  | succ fuel ih =>
      intro pool rank acc calls hne hlen hval hpw hfresh
      by_cases hlp : 1 < pool.length
      · -- loop body: pop the comparator's choice, hand out the next rank
        have hidx : strat (pool.map (fun q => q.2)) < pool.length := by
          have := Hstrat (pool.map (fun q => q.2)) (by simpa using hlp)
          simpa using this
        obtain ⟨x, pool', hpop⟩ := listPop_of_lt hidx
        obtain ⟨var, score⟩ := x
        obtain ⟨name, hname⟩ := hval (var, score) (listPop_mem hpop)
        have hsub : pool' ⊆ pool := by
          obtain ⟨-, rfl⟩ := listPop_eq_some hpop
          exact (List.eraseIdx_sublist pool _).subset
        -- the popped element's name does not occur among the rest
        have hpoolsplit := listPop_decomp hpop
        have hnotin : ∀ q ∈ pool', names[q.1]? ≠ some name := by
          intro q hq
          have hmid : pool.Pairwise (fun a b => names[a.1]? ≠ names[b.1]?) := hpw
          rw [hpoolsplit.1] at hmid
          have := (List.pairwise_middle (fun hab => Ne.symm hab)).mp hmid
          rw [List.pairwise_cons] at this
          have hne' := this.1 q (by rw [← hpoolsplit.2]; exact hq)
          rw [hname] at hne'
          exact fun hc => hne' (hc ▸ rfl)
        have hkey : name ∉ acc.map Prod.fst := by
          intro hmem
          obtain ⟨p, hp, hp1⟩ := List.mem_map.mp hmem
          exact hfresh (var, score) (listPop_mem hpop) p hp (hp1 ▸ hname)
        have hins : dictInsert acc name (rank, score) = acc ++ [(name, rank, score)] :=
          dictInsert_of_not_mem _ hkey
        have hstep : rankLoop strat names (fuel + 1) pool rank acc calls
            = rankLoop strat names fuel pool' (rank + 1)
                (dictInsert acc name (rank, score)) (calls + 1) := by
          simp only [rankLoop, if_pos hlp, hpop, hname]
        have hlen' : pool'.length + 1 = pool.length := listPop_length hpop
        have hne' : pool' ≠ [] := by
          intro hc
          rw [hc] at hlen'
          simp only [List.length_nil] at hlen'
          omega
        obtain ⟨d', fin, calls', hrec, hranks, hmemb, hfin, hcalls⟩ :=
          ih pool' (rank + 1) (dictInsert acc name (rank, score)) (calls + 1)
            hne' (by omega)
            (fun q hq => hval q (hsub hq))
            (hpw.sublist (by obtain ⟨-, rfl⟩ := listPop_eq_some hpop
                             exact List.eraseIdx_sublist pool _))
            (by
              intro q hq p hp
              rw [hins] at hp
              rcases List.mem_append.mp hp with hp1 | hp2
              · exact hfresh q (hsub hq) p hp1
              · have : p = (name, rank, score) := by simpa using hp2
                rw [this]
                exact hnotin q hq)
        refine ⟨(name, rank, score) :: d', fin, calls', ?_, ?_, ?_, hfin, ?_⟩
        · rw [hstep, hrec, hins, List.append_assoc]
          rfl
        · rw [List.map_cons, hranks, ← hlen']
          exact (List.range'_succ rank pool'.length 1).symm
        · intro p hp
          rcases List.mem_cons.mp hp with rfl | hp'
          · exact ⟨(var, score), listPop_mem hpop, hname, rfl⟩
          · obtain ⟨q, hq, hqn, hqs⟩ := hmemb p hp'
            exact ⟨q, hsub hq, hqn, hqs⟩
        · omega
      · -- loop exit: a single element remains and takes the last rank
        have hlen1 : pool.length = 1 := by
          have := List.length_pos.mpr hne
          omega
        obtain ⟨q, hq⟩ : ∃ q, pool = [q] := by
          cases pool with
          | nil => exact absurd rfl hne
          | cons q rest =>
              cases rest with
              | nil => exact ⟨q, rfl⟩
              | cons r rs => simp at hlen1
        obtain ⟨var, score⟩ := q
        obtain ⟨name, hname⟩ := hval (var, score) (hq ▸ List.mem_singleton.mpr rfl)
        have hkey : name ∉ acc.map Prod.fst := by
          intro hmem
          obtain ⟨p, hp, hp1⟩ := List.mem_map.mp hmem
          exact hfresh (var, score) (hq ▸ List.mem_singleton.mpr rfl) p hp (hp1 ▸ hname)
        have hins : dictInsert acc name (rank, score) = acc ++ [(name, rank, score)] :=
          dictInsert_of_not_mem _ hkey
        refine ⟨[(name, rank, score)], [(var, score)], calls, ?_, ?_, ?_, rfl, ?_⟩
        · rw [hq]
          simp [rankLoop, hname, hins]
        · rw [hq]
          simp [List.range'_one]
        · intro p hp
          obtain rfl : p = (name, rank, score) := by simpa using hp
          exact ⟨(var, score), hq ▸ List.mem_singleton.mpr rfl, hname, rfl⟩
        · omega

/-! ### Folded dictionary construction -/

theorem foldl_insert_keys_sub {A K V : Type} [DecidableEq K]
    (key : A → K) (val : A → V) :
    ∀ (l : List A) (init : List (K × V)) (k : K),
      k ∈ ((l.foldl (fun d a => dictInsert d (key a) (val a)) init).map Prod.fst) →
      k ∈ init.map Prod.fst ∨ k ∈ l.map key := by
  intro l
  induction l with
  | nil => intro init k h; exact Or.inl h
  | cons a t ih =>
      intro init k h
      rw [List.foldl_cons] at h
      rcases ih (dictInsert init (key a) (val a)) k h with h1 | h2
      · rcases (keys_dictInsert init (key a) (val a) k).mp h1 with h3 | h4
        · exact Or.inl h3
        · exact Or.inr (by rw [List.map_cons, h4]; exact List.mem_cons_self _ _)
      · exact Or.inr (List.map_cons key a t ▸ List.mem_cons_of_mem _ h2)

theorem foldl_insert_keys_nodup {A K V : Type} [DecidableEq K]
    (key : A → K) (val : A → V) :
    ∀ (l : List A) (init : List (K × V)),
      (init.map Prod.fst).Nodup →
      ((l.foldl (fun d a => dictInsert d (key a) (val a)) init).map Prod.fst).Nodup := by
  intro l
  induction l with
  | nil => intro init h; exact h
  | cons a t ih =>
      intro init h
      rw [List.foldl_cons]
      exact ih _ (keysNodup_dictInsert _ _ h)

/-- If every key appended is fresh, folding `dictInsert` is plain append. -/
theorem foldl_insert_of_nodup {K V : Type} [DecidableEq K] :
    ∀ (l init : List (K × V)),
      ((init ++ l).map Prod.fst).Nodup →
      l.foldl (fun d p => dictInsert d p.1 p.2) init = init ++ l := by
  intro l
  induction l with
  | nil => intro init _; simp
  | cons p t ih =>
      intro init h
      rw [List.foldl_cons]
      have hfresh : p.1 ∉ init.map Prod.fst := by
        intro hmem
        rw [List.map_append] at h
        have h1 := (List.nodup_append.mp h).2.2
        exact h1 hmem (by simp)
      rw [dictInsert_of_not_mem _ hfresh]
      have h2 : (((init ++ [p]) ++ t).map Prod.fst).Nodup := by
        rw [List.append_assoc]
        simpa using h
      rw [ih (init ++ [p]) h2, List.append_assoc]
      rfl

/-- Lookup in a duplicate-free association list is permutation-invariant. -/
theorem dictGet_perm {K V : Type} [DecidableEq K] {l l' : List (K × V)}
    (hperm : l.Perm l') (hnd : (l.map Prod.fst).Nodup) (k : K) :
    dictGet l k = dictGet l' k := by
  have hnd' : (l'.map Prod.fst).Nodup := ((hperm.map Prod.fst).nodup_iff).mp hnd
  cases hg : dictGet l k with
  | none =>
      rw [dictGet_eq_none_iff] at hg
      have : k ∉ l'.map Prod.fst := fun hc =>
        hg (((hperm.map Prod.fst).mem_iff).mpr hc)
      exact ((dictGet_eq_none_iff l' k).mpr this).symm
  | some v =>
      have hmem : (k, v) ∈ l' := hperm.subset (mem_of_dictGet_eq_some hg)
      exact (dictGet_eq_some_of_mem hnd' hmem).symm

/-! ### `Except` fold invariants -/

theorem foldlM_except_inv {α β : Type} (P : β → Prop)
    (f : β → α → Except Err β) :
    ∀ (l : List α), (∀ b a b', a ∈ l → P b → f b a = .ok b' → P b') →
      ∀ (b b' : β), l.foldlM f b = .ok b' → P b → P b' := by
  intro l
  induction l with
  | nil =>
      intro _ b b' h hP
      simp only [List.foldlM_nil] at h
      exact (Except.ok.inj h) ▸ hP
  | cons a t ih =>
      intro hf b b' h hP
      simp only [List.foldlM_cons] at h
      cases hstep : f b a with
      | error e => rw [hstep] at h; cases h
      | ok b1 =>
          rw [hstep] at h
          exact ih (fun b a' b' ha' => hf b a' b' (List.mem_cons_of_mem _ ha'))
            b1 b' h (hf b a b1 (List.mem_cons_self a t) hP hstep)

/-! ### Bootstrap merging -/

theorem mergeOne_keys {result : List (Nat × List ℚ)} {result_i : List (Nat × ℚ)}
    {r' : List (Nat × List ℚ)} (h : mergeOne result result_i = .ok r') :
    ∀ k ∈ r'.map Prod.fst, k ∈ result.map Prod.fst ∨ k ∈ result_i.map Prod.fst := by
  unfold mergeOne at h
  by_cases hz : result.length = 0
  · rw [if_pos hz] at h
    intro k hk
    obtain rfl : (result_i.foldl (fun acc p => dictInsert acc p.1 [p.2]) []) = r' :=
      Except.ok.inj h
    rcases foldl_insert_keys_sub (fun p => p.1) (fun p => [p.2]) result_i [] k hk with h1 | h2
    · simp at h1
    · exact Or.inr (by simpa using h2)
  · rw [if_neg hz] at h
    intro k hk
    refine foldlM_except_inv
      (fun acc => ∀ k ∈ acc.map Prod.fst,
        k ∈ result.map Prod.fst ∨ k ∈ result_i.map Prod.fst) _ result_i ?_
      result r' h (fun k hk => Or.inl hk) k hk
    intro b p b' hp hP hstep
    cases hget : dictGet b p.1 with
    | none => rw [hget] at hstep; exact absurd hstep (by simp)
    | some lv =>
        rw [hget] at hstep
        obtain rfl : dictInsert b p.1 (lv ++ [p.2]) = b' := Except.ok.inj hstep
        intro k2 hk2
        rcases (keys_dictInsert b p.1 (lv ++ [p.2]) k2).mp hk2 with h1 | h2
        · exact hP k2 h1
        · exact Or.inr (h2 ▸ List.mem_map_of_mem Prod.fst hp)

theorem mergeOne_keysNodup {result : List (Nat × List ℚ)}
    {result_i : List (Nat × ℚ)} {r' : List (Nat × List ℚ)}
    (h : mergeOne result result_i = .ok r')
    (hnd : (result.map Prod.fst).Nodup) : (r'.map Prod.fst).Nodup := by
  unfold mergeOne at h
  by_cases hz : result.length = 0
  · rw [if_pos hz] at h
    obtain rfl : (result_i.foldl (fun acc p => dictInsert acc p.1 [p.2]) []) = r' :=
      Except.ok.inj h
    exact foldl_insert_keys_nodup _ _ result_i [] (by simp)
  · rw [if_neg hz] at h
    refine foldlM_except_inv (fun acc => (acc.map Prod.fst).Nodup) _ result_i ?_
      result r' h hnd
    intro b p b' hp hP hstep
    cases hget : dictGet b p.1 with
    | none => rw [hget] at hstep; exact absurd hstep (by simp)
    | some lv =>
        rw [hget] at hstep
        obtain rfl : dictInsert b p.1 (lv ++ [p.2]) = b' := Except.ok.inj hstep
        exact keysNodup_dictInsert _ _ hP

/-! ### Bootstrap collection invariants -/

theorem collectBootstrapsAux_keys (pass_result : Nat → List (Nat × ℚ))
    (Q : Nat → Prop) (hpass : ∀ j k, k ∈ (pass_result j).map Prod.fst → Q k) :
    ∀ (n i : Nat) (r r' : List (Nat × List ℚ)),
      collectBootstrapsAux pass_result i n r = .ok r' →
      (∀ k ∈ r.map Prod.fst, Q k) → ∀ k ∈ r'.map Prod.fst, Q k := by
  intro n
  induction n with
  | zero =>
      intro i r r' h hr
      simp only [collectBootstrapsAux] at h
      exact (Except.ok.inj h) ▸ hr
  | succ n ih =>
      intro i r r' h hr
      simp only [collectBootstrapsAux] at h
      cases hm : mergeOne r (pass_result i) with
      | error e => rw [hm] at h; cases h
      | ok r1 =>
          rw [hm] at h
          refine ih (i + 1) r1 r' h ?_
          intro k hk
          rcases mergeOne_keys hm k hk with h1 | h2
          · exact hr k h1
          · exact hpass i k h2

theorem collectBootstrapsAux_keysNodup (pass_result : Nat → List (Nat × ℚ)) :
    ∀ (n i : Nat) (r r' : List (Nat × List ℚ)),
      collectBootstrapsAux pass_result i n r = .ok r' →
      (r.map Prod.fst).Nodup → (r'.map Prod.fst).Nodup := by
  intro n
  induction n with
  | zero =>
      intro i r r' h hr
      simp only [collectBootstrapsAux] at h
      exact (Except.ok.inj h) ▸ hr
  | succ n ih =>
      intro i r r' h hr
      simp only [collectBootstrapsAux] at h
      cases hm : mergeOne r (pass_result i) with
      | error e => rw [hm] at h; cases h
      | ok r1 =>
          rw [hm] at h
          exact ih (i + 1) r1 r' h (mergeOne_keysNodup hm hr)

theorem singlethread_keys {D : Type} (it : List (Nat × D × D))
    (f : D → D → ℚ) :
    ∀ k ∈ (_singlethread_iteration it f).map Prod.fst, k ∈ it.map (fun t => t.1) := by
  intro k hk
  rcases foldl_insert_keys_sub (fun (t : Nat × D × D) => t.1)
      (fun (t : Nat × D × D) => f t.2.1 t.2.2) it [] k hk with h | h
  · simp at h
  · exact h

theorem collectBootstraps_keys {D : Type}
    (selection_strategy : List Nat → Nat → List (Nat × D × D))
    (scoring_fn : D → D → ℚ) (imp : List Nat) (nboot : Nat)
    {merged : List (Nat × List ℚ)}
    (h : collectBootstraps selection_strategy scoring_fn imp nboot = .ok merged) :
    ∀ k ∈ merged.map Prod.fst, ∃ j q, q ∈ selection_strategy imp j ∧ q.1 = k := by
  intro k hk
  refine collectBootstrapsAux_keys _ (fun k => ∃ j q, q ∈ selection_strategy imp j ∧ q.1 = k)
    ?_ nboot 0 [] merged h (by simp) k hk
  intro j k2 hk2
  have := singlethread_keys (selection_strategy imp j) scoring_fn k2 hk2
  obtain ⟨q, hq, hq1⟩ := List.mem_map.mp this
  exact ⟨j, q, hq, hq1⟩

theorem collectBootstraps_keysNodup {D : Type}
    (selection_strategy : List Nat → Nat → List (Nat × D × D))
    (scoring_fn : D → D → ℚ) (imp : List Nat) (nboot : Nat)
    {merged : List (Nat × List ℚ)}
    (h : collectBootstraps selection_strategy scoring_fn imp nboot = .ok merged) :
    (merged.map Prod.fst).Nodup :=
  collectBootstrapsAux_keysNodup _ nboot 0 [] merged h (by simp)

/-! ### Python `min` by rank -/

theorem pyMinAux_spec :
    ∀ (rest : List (String × Nat × ℚ)) (bk : String) (br : Nat),
      ∃ rk, rk ≤ br ∧ (∀ p ∈ rest, rk ≤ p.2.1) ∧
        ((pyMinAux rest bk br = bk ∧ rk = br) ∨
          ∃ s, (pyMinAux rest bk br, rk, s) ∈ rest) := by
  intro rest
  induction rest with
  | nil =>
      intro bk br
      exact ⟨br, le_refl br, by simp, Or.inl ⟨rfl, rfl⟩⟩
  | cons p t ih =>
      intro bk br
      obtain ⟨k2, r2, s2⟩ := p
      by_cases hlt : r2 < br
      · obtain ⟨rk, hrk, hall, hform⟩ := ih k2 r2
        refine ⟨rk, by omega, ?_, ?_⟩
        · intro q hq
          rcases List.mem_cons.mp hq with rfl | hq'
          · simpa using hrk
          · exact hall q hq'
        · simp only [pyMinAux, if_pos hlt]
          rcases hform with ⟨heq, hrkeq⟩ | ⟨s, hmem⟩
          · exact Or.inr ⟨s2, by rw [heq, hrkeq]; exact List.mem_cons_self _ _⟩
          · exact Or.inr ⟨s, List.mem_cons_of_mem _ hmem⟩
      · obtain ⟨rk, hrk, hall, hform⟩ := ih bk br
        refine ⟨rk, hrk, ?_, ?_⟩
        · intro q hq
          rcases List.mem_cons.mp hq with rfl | hq'
          · simp only
            omega
          · exact hall q hq'
        · simp only [pyMinAux, if_neg hlt]
          rcases hform with ⟨heq, hrkeq⟩ | ⟨s, hmem⟩
          · exact Or.inl ⟨heq, hrkeq⟩
          · exact Or.inr ⟨s, List.mem_cons_of_mem _ hmem⟩

/-- A successful `min` returns a key present in the rank map whose rank is
minimal among all entries. -/
theorem pyMinByRank_spec {d : List (String × Nat × ℚ)} {k : String}
    (h : pyMinByRank d = some k) :
    ∃ rk s, (k, rk, s) ∈ d ∧ ∀ p ∈ d, rk ≤ p.2.1 := by
  cases d with
  | nil => cases h
  | cons p t =>
      obtain ⟨k0, r0, s0⟩ := p
      simp only [pyMinByRank, Option.some.injEq] at h
      obtain ⟨rk, hrk, hall, hform⟩ := pyMinAux_spec t k0 r0
      rcases hform with ⟨heq, hrkeq⟩ | ⟨s, hmem⟩
      · refine ⟨r0, s0, ?_, ?_⟩
        · rw [← h, heq]
          exact List.mem_cons_self _ _
        · intro q hq
          rcases List.mem_cons.mp hq with rfl | hq'
          · simp
          · have := hall q hq'
            omega
      · refine ⟨rk, s, ?_, ?_⟩
        · rw [← h]
          exact List.mem_cons_of_mem _ hmem
        · intro q hq
          rcases List.mem_cons.mp hq with rfl | hq'
          · simpa using hrk
          · exact hall q hq'

/-! ### `np.flatnonzero(...)[0]` -/

theorem flatnonzeroFirst_spec :
    ∀ (names : List String) (t : String) (i : Nat),
      flatnonzeroFirst names t = some i → i < names.length ∧ names[i]? = some t := by
  intro names
  induction names with
  | nil => intro t i h; cases h
  | cons nm rest ih =>
      intro t i h
      by_cases heq : nm = t
      · simp only [flatnonzeroFirst, if_pos heq, Option.some.injEq] at h
        subst h
        simpa using heq
      · simp only [flatnonzeroFirst, if_neg heq] at h
        cases hrec : flatnonzeroFirst rest t with
        | none => rw [hrec] at h; cases h
        | some j =>
            rw [hrec] at h
            simp only [Option.map_some', Option.some.injEq] at h
            obtain ⟨hlt, hget⟩ := ih t j hrec
            subst h
            refine ⟨by simpa using hlt, by simpa using hget⟩

/-! ### Success of the ranking loop keeps keys duplicate-free -/

theorem rankLoop_keysNodup (strat : List ℚ → Nat) (names : List String) :
    ∀ (fuel : Nat) (pool : List (Nat × ℚ)) (rank : Nat)
      (acc : List (String × Nat × ℚ)) (calls : Nat) (out : List (String × Nat × ℚ))
      (fin : List (Nat × ℚ)) (c : Nat),
      rankLoop strat names fuel pool rank acc calls = some (out, fin, c) →
      (acc.map Prod.fst).Nodup → (out.map Prod.fst).Nodup := by
  intro fuel
  induction fuel with
  | zero => intro pool rank acc calls out fin c h; cases h
  | succ fuel ih =>
      intro pool rank acc calls out fin c h hacc
      by_cases hlp : 1 < pool.length
      · cases hpop : listPop pool (strat (pool.map (fun q => q.2))) with
        | none => simp only [rankLoop, if_pos hlp, hpop] at h; cases h
        | some x =>
            obtain ⟨⟨var, score⟩, pool'⟩ := x
            cases hnm : names[var]? with
            | none => simp only [rankLoop, if_pos hlp, hpop, hnm] at h; cases h
            | some name =>
                simp only [rankLoop, if_pos hlp, hpop, hnm] at h
                exact ih pool' (rank + 1) _ (calls + 1) out fin c h
                  (keysNodup_dictInsert _ _ hacc)
      · cases pool with
        | nil => simp [rankLoop] at h
        | cons q rest =>
            obtain ⟨var, score⟩ := q
            have hrest0 : rest = [] := by
              cases rest with
              | nil => rfl
              | cons a b =>
                  exfalso
                  simp only [List.length_cons] at hlp
                  omega
            subst hrest0
            cases hnm : names[var]? with
            | none => simp [rankLoop, hnm] at h
            | some name =>
                simp [rankLoop, hnm, Prod.ext_iff] at h
                exact h.1 ▸ keysNodup_dictInsert _ _ hacc

/-- `np.argmin` is a valid comparator: on every list of two or more scores
it returns an in-range index. -/
theorem argminQ_valid : ∀ l : List ℚ, 1 < l.length → argminQ l < l.length := by
  intro l hl
  refine argminQ_lt ?_
  intro hc
  rw [hc] at hl
  simp at hl

theorem getElem?_inj_nodup {l : List String} (h : l.Nodup) {i j : Nat}
    {a : String} (hi : l[i]? = some a) (hj : l[j]? = some a) : i = j := by
  obtain ⟨hi1, hi2⟩ := List.getElem?_eq_some.mp hi
  obtain ⟨hj1, hj2⟩ := List.getElem?_eq_some.mp hj
  exact (h.getElem_inj_iff).mp (hi2.trans hj2.symm)

/-- Inversion of a successful selection round: the round collected the
bootstrap score lists, ranked their per-variable arithmetic means, its
rank map assigns exactly the ranks `0 … n-1`, the `min`-selected winner is
the variable holding rank 0, its (first) index is a variable offered by the
strategy, and history and results each grow by exactly that one entry. -/
theorem roundStep_inv {D : Type}
    (selection_strategy : List Nat → Nat → List (Nat × D × D))
    (scoring_fn : D → D → ℚ) (strat : List ℚ → Nat) (names : List String)
    (nbootstrap : Nat) (imp : List Nat)
    (res : List (List (String × Nat × ℚ) × String))
    (st' : List Nat × List (List (String × Nat × ℚ) × String))
    (hnames : names.Nodup)
    (Hstrat : ∀ l : List ℚ, 1 < l.length → strat l < l.length)
    (hvars : ∀ i q, q ∈ selection_strategy imp i → q.1 < names.length)
    (hok : roundStep selection_strategy scoring_fn strat names nbootstrap (imp, res)
      = .ok st') :
    ∃ merged next_result best_var best_index s,
      collectBootstraps selection_strategy scoring_fn imp nbootstrap = .ok merged ∧
      add_ranks_to_dict (merged.map (fun p => (p.1, npAverage p.2))) names strat
        = some next_result ∧
      pyMinByRank next_result = some best_var ∧
      next_result.map (fun p => p.2.1) = List.range next_result.length ∧
      dictGet next_result best_var = some (0, s) ∧
      flatnonzeroFirst names best_var = some best_index ∧
      best_index ∈ merged.map Prod.fst ∧
      st' = (imp ++ [best_index], res ++ [(next_result, best_var)]) := by
  -- peel the round's sequence of fallible steps
  cases hcb : collectBootstraps selection_strategy scoring_fn imp nbootstrap with
  | error e => simp only [roundStep, hcb] at hok; cases hok
  | ok merged =>
  cases har : add_ranks_to_dict (merged.map (fun p => (p.1, npAverage p.2))) names strat with
  | none => simp only [roundStep, hcb, har] at hok; cases hok
  | some next_result =>
  cases hmin : pyMinByRank next_result with
  | none => simp only [roundStep, hcb, har, hmin] at hok; cases hok
  | some best_var =>
  cases hfz : flatnonzeroFirst names best_var with
  | none => simp only [roundStep, hcb, har, hmin, hfz] at hok; cases hok
  | some best_index =>
  have hst' : st' = (imp ++ [best_index], res ++ [(next_result, best_var)]) := by
    simp only [roundStep, hcb, har, hmin, hfz] at hok
    exact (Except.ok.inj hok).symm
  -- the ranked input and its well-formedness
  set input := merged.map (fun p => (p.1, npAverage p.2)) with hinput
  have hkeys_eq : input.map Prod.fst = merged.map Prod.fst := by
    rw [hinput, List.map_map]
    rfl
  have hmkeys : ∀ k ∈ merged.map Prod.fst, k < names.length := by
    intro k hk
    obtain ⟨j, q, hq, hq1⟩ := collectBootstraps_keys _ _ _ _ hcb k hk
    exact hq1 ▸ hvars j q hq
  have hval : ∀ q ∈ input, ∃ nm, names[q.1]? = some nm := by
    intro q hq
    have hqm : q.1 ∈ merged.map Prod.fst := by
      rw [← hkeys_eq]
      exact List.mem_map_of_mem Prod.fst hq
    have hlt := hmkeys q.1 hqm
    exact ⟨names[q.1], List.getElem?_eq_getElem hlt⟩
  have hknodup : (input.map Prod.fst).Nodup := by
    rw [hkeys_eq]
    exact collectBootstraps_keysNodup _ _ _ _ hcb
  have hpw : input.Pairwise (fun q q' => names[q.1]? ≠ names[q'.1]?) := by
    have h1 : input.Pairwise (fun q q' => q.1 ≠ q'.1) :=
      List.pairwise_map.mp hknodup
    refine List.Pairwise.imp_of_mem ?_ h1
    intro a b ha hb hne hc
    obtain ⟨na, hna⟩ := hval a ha
    obtain ⟨nb, hnb⟩ := hval b hb
    rw [hna, hnb] at hc
    exact hne (getElem?_inj_nodup hnames hna (hc ▸ hnb))
  -- the rank map is non-trivial: an empty input would make `min` fail
  have hnr_ne : next_result ≠ [] := by
    intro hc
    rw [hc] at hmin
    cases hmin
  have hine : input ≠ [] := by
    intro hc
    apply hnr_ne
    have har' := hc ▸ har
    simp [add_ranks_to_dict, convert_result_list_to_dict, convertFull] at har'
    exact har'
  -- run the ranking loop's invariant on the actual input
  obtain ⟨d, fin, calls, hloop, hranks, hmemb, hfin, hcalls⟩ :=
    rankLoop_spec strat names Hstrat input.length input 0 [] 0 hine (le_refl _)
      hval hpw (by simp)
  have hconv : convertFull input names strat = some (d, fin, calls) := by
    have hlen0 : ¬ input.length = 0 := by
      intro hc
      exact hine (List.length_eq_zero.mp hc)
    simp only [convertFull, if_neg hlen0]
    simpa using hloop
  have hd : d = next_result := by
    simp only [add_ranks_to_dict, convert_result_list_to_dict, hconv,
      Option.map_some', Option.some.injEq] at har
    exact har
  subst hd
  have hlen_d : d.length = input.length := by
    have := congrArg List.length hranks
    simpa using this
  have hranks' : d.map (fun p => p.2.1) = List.range d.length := by
    rw [List.range_eq_range', hlen_d]
    exact hranks
  -- the winner holds rank 0
  obtain ⟨rk, s, hwin_mem, hwin_min⟩ := pyMinByRank_spec hmin
  have hdnodup : (d.map Prod.fst).Nodup :=
    rankLoop_keysNodup strat names input.length input 0 [] 0 d fin calls hloop (by simp)
  have hrk0 : rk = 0 := by
    have hdne : d ≠ [] := by
      intro hc
      rw [hc] at hwin_mem
      cases hwin_mem
    have h0mem : (0 : Nat) ∈ d.map (fun p => p.2.1) := by
      rw [hranks']
      refine List.mem_range.mpr ?_
      have := List.length_pos.mpr hdne
      omega
    obtain ⟨p0, hp0, hp0r⟩ := List.mem_map.mp h0mem
    have := hwin_min p0 hp0
    omega
  have hget : dictGet d best_var = some (0, s) :=
    dictGet_eq_some_of_mem hdnodup (hrk0 ▸ hwin_mem)
  -- the winner's index is one of the round's scored variables
  obtain ⟨hfzlt, hfzget⟩ := flatnonzeroFirst_spec names best_var best_index hfz
  obtain ⟨q, hq_mem, hq_name, -⟩ := hmemb (best_var, 0, s) (hrk0 ▸ hwin_mem)
  have hbi : best_index = q.1 := getElem?_inj_nodup hnames hfzget hq_name
  have hbi_mem : best_index ∈ merged.map Prod.fst := by
    rw [hbi, ← hkeys_eq]
    exact List.mem_map_of_mem Prod.fst hq_mem
  exact ⟨merged, d, best_var, best_index, s, rfl, har, hmin, hranks', hget, hfz,
    hbi_mem, hst'⟩

/-! ### Forward-selection rounds: success while candidates remain,
the empty-`min` failure once they are exhausted -/

/-- Variables offered by the spec-modelled forward strategy are in-range
and never already-important. -/
theorem forwardStrategy_vars {D : Type} (num_vars : Nat) (mk : Nat → Nat → D × D) :
    ∀ (imp : List Nat) (i : Nat) (q : Nat × D × D),
      q ∈ forwardStrategy num_vars mk imp i → q.1 < num_vars ∧ q.1 ∉ imp := by
  intro imp i q hq
  obtain ⟨v, hv, rfl⟩ := List.mem_map.mp hq
  have hfil := List.mem_filter.mp hv
  constructor
  · exact List.mem_range.mp hfil.1
  · simpa using hfil.2


theorem foldl_insert_keys_super {A K V : Type} [DecidableEq K]
    (key : A → K) (val : A → V) :
    ∀ (l : List A) (init : List (K × V)) (k : K),
      k ∈ init.map Prod.fst ∨ k ∈ l.map key →
      k ∈ ((l.foldl (fun d a => dictInsert d (key a) (val a)) init).map Prod.fst) := by
  intro l
  induction l with
  | nil =>
      intro init k h
      rcases h with h | h
      · exact h
      · simp at h
  | cons a t ih =>
      intro init k h
      rw [List.foldl_cons]
      refine ih (dictInsert init (key a) (val a)) k ?_
      rcases h with h | h
      · exact Or.inl ((keys_dictInsert init (key a) (val a) k).mpr (Or.inl h))
      · rw [List.map_cons, List.mem_cons] at h
        rcases h with rfl | h
        · exact Or.inl ((keys_dictInsert init (key a) (val a) (key a)).mpr (Or.inr rfl))
        · exact Or.inr h

theorem flatnonzeroFirst_of_mem :
    ∀ (names : List String) (t : String), t ∈ names →
      ∃ i, flatnonzeroFirst names t = some i := by
  intro names
  induction names with
  | nil => intro t h; cases h
  | cons nm rest ih =>
      intro t h
      by_cases hnm : nm = t
      · exact ⟨0, by simp [flatnonzeroFirst, hnm]⟩
      · have hmem : t ∈ rest := by
          rcases List.mem_cons.mp h with h1 | h2
          · exact absurd h1.symm hnm
          · exact h2
        obtain ⟨i, hi⟩ := ih t hmem
        exact ⟨i + 1, by simp [flatnonzeroFirst, hnm, hi]⟩

theorem pairwise_names_of_keysNodup (names : List String) (hnames : names.Nodup)
    (input : List (Nat × ℚ)) (hk : (input.map Prod.fst).Nodup)
    (hb : ∀ q ∈ input, q.1 < names.length) :
    input.Pairwise (fun q q' => names[q.1]? ≠ names[q'.1]?) := by
  have h1 : input.Pairwise (fun q q' => q.1 ≠ q'.1) := List.pairwise_map.mp hk
  refine List.Pairwise.imp_of_mem ?_ h1
  intro a b ha hbm hne hc
  have hlta := hb a ha
  have hga : names[a.1]? = some names[a.1] := List.getElem?_eq_getElem hlta
  exact hne (getElem?_inj_nodup hnames hga (by rw [← hc]; exact hga))

/-- While at least one candidate remains, a round over the spec-modelled
forward strategy (one bootstrap pass) completes and appends a fresh
in-range winner to the history. -/
theorem roundStep_forward_success {D : Type} (names : List String)
    (mk : Nat → Nat → D × D) (scoring_fn : D → D → ℚ) (strat : List ℚ → Nat)
    (hnames : names.Nodup)
    (Hstrat : ∀ l : List ℚ, 1 < l.length → strat l < l.length)
    (imp : List Nat) (res : List (List (String × Nat × ℚ) × String))
    (hex : ∃ v, v < names.length ∧ v ∉ imp) :
    ∃ bi st2,
      roundStep (forwardStrategy names.length mk) scoring_fn strat names 1 (imp, res)
        = .ok (imp ++ [bi], res ++ [st2]) ∧ bi < names.length ∧ bi ∉ imp := by
  obtain ⟨v, hvN, hv⟩ := hex
  have hcb : collectBootstraps (forwardStrategy names.length mk) scoring_fn imp 1
      = .ok ((_singlethread_iteration (forwardStrategy names.length mk imp 0)
          scoring_fn).foldl (fun acc p => dictInsert acc p.1 [p.2]) []) := rfl
  -- the missing variable is a candidate, so it is a key of the collected map
  have hvtriple : (v, (mk v 0).1, (mk v 0).2) ∈ forwardStrategy names.length mk imp 0 := by
    refine List.mem_map.mpr ⟨v, ?_, rfl⟩
    refine List.mem_filter.mpr ⟨List.mem_range.mpr hvN, ?_⟩
    simp [hv]
  have hvc : v ∈ (forwardStrategy names.length mk imp 0).map (fun t => t.1) :=
    List.mem_map.mpr ⟨_, hvtriple, rfl⟩
  have hv_single : v ∈ (_singlethread_iteration
      (forwardStrategy names.length mk imp 0) scoring_fn).map Prod.fst :=
    foldl_insert_keys_super (fun (t : Nat × D × D) => t.1)
      (fun (t : Nat × D × D) => scoring_fn t.2.1 t.2.2) _ [] v (Or.inr hvc)
  have hvm : v ∈ ((_singlethread_iteration (forwardStrategy names.length mk imp 0)
      scoring_fn).foldl (fun acc p => dictInsert acc p.1 [p.2]) []).map Prod.fst :=
    foldl_insert_keys_super (fun (p : Nat × ℚ) => p.1) (fun (p : Nat × ℚ) => [p.2])
      _ [] v (Or.inr hv_single)
  generalize hM : ((_singlethread_iteration (forwardStrategy names.length mk imp 0)
      scoring_fn).foldl (fun acc p => dictInsert acc p.1 [p.2]) []) = merged at hcb hvm
  -- well-formedness of the averaged score map
  have hkN : ∀ k ∈ merged.map Prod.fst, k < names.length ∧ k ∉ imp := by
    intro k hk
    obtain ⟨j, q, hq, hq1⟩ := collectBootstraps_keys _ _ _ _ hcb k hk
    exact hq1 ▸ forwardStrategy_vars names.length mk imp j q hq
  have hknodup : (merged.map Prod.fst).Nodup := collectBootstraps_keysNodup _ _ _ _ hcb
  have hkeys_eq : (merged.map (fun p => (p.1, npAverage p.2))).map Prod.fst
      = merged.map Prod.fst := by
    rw [List.map_map]
    rfl
  have hine : merged.map (fun p => (p.1, npAverage p.2)) ≠ [] := by
    intro hc
    have : merged = [] := List.map_eq_nil_iff.mp hc
    rw [this] at hvm
    cases hvm
  have hbq : ∀ q ∈ merged.map (fun p => (p.1, npAverage p.2)), q.1 < names.length := by
    intro q hq
    have : q.1 ∈ merged.map Prod.fst := by
      rw [← hkeys_eq]
      exact List.mem_map_of_mem Prod.fst hq
    exact (hkN q.1 this).1
  obtain ⟨d, fin, calls, hloop, hranks, hmemb, hfin, hcalls⟩ :=
    rankLoop_spec strat names Hstrat (merged.map (fun p => (p.1, npAverage p.2))).length
      (merged.map (fun p => (p.1, npAverage p.2))) 0 [] 0 hine (le_refl _)
      (by
        intro q hq
        have hlt := hbq q hq
        exact ⟨names[q.1], List.getElem?_eq_getElem hlt⟩)
      (pairwise_names_of_keysNodup names hnames _ (by rw [hkeys_eq]; exact hknodup) hbq)
      (by simp)
  have hlen0 : ¬ (merged.map (fun p => (p.1, npAverage p.2))).length = 0 :=
    fun hc => hine (List.length_eq_zero.mp hc)
  have hconv : convertFull (merged.map (fun p => (p.1, npAverage p.2))) names strat
      = some (d, fin, calls) := by
    simp only [convertFull, if_neg hlen0]
    simpa using hloop
  have har : add_ranks_to_dict (merged.map (fun p => (p.1, npAverage p.2))) names strat
      = some d := by
    simp [add_ranks_to_dict, convert_result_list_to_dict, hconv]
  have hdne : d ≠ [] := by
    intro hc
    rw [hc] at hranks
    have h0 : (merged.map (fun p => (p.1, npAverage p.2))).length = 0 := by
      have := congrArg List.length hranks
      simpa using this.symm
    exact hlen0 h0
  obtain ⟨bv, hmin⟩ : ∃ bv, pyMinByRank d = some bv := by
    cases d with
    | nil => exact absurd rfl hdne
    | cons p t =>
        obtain ⟨k0, r0, s0⟩ := p
        exact ⟨pyMinAux t k0 r0, rfl⟩
  obtain ⟨rk, s, hwmem, -⟩ := pyMinByRank_spec hmin
  obtain ⟨q, hqin, hqname, -⟩ := hmemb (bv, rk, s) hwmem
  obtain ⟨hqlt, hqeq⟩ := List.getElem?_eq_some.mp hqname
  have hbv_mem : bv ∈ names := by
    have hm := List.getElem_mem hqlt
    rw [hqeq] at hm
    exact hm
  obtain ⟨bi, hfz⟩ := flatnonzeroFirst_of_mem names bv hbv_mem
  obtain ⟨hbiN, hbiget⟩ := flatnonzeroFirst_spec names bv bi hfz
  have hbi_eq : bi = q.1 := getElem?_inj_nodup hnames hbiget hqname
  have hq_keys : q.1 ∈ merged.map Prod.fst := by
    rw [← hkeys_eq]
    exact List.mem_map_of_mem Prod.fst hqin
  refine ⟨bi, (d, bv), ?_, hbiN, hbi_eq ▸ (hkN q.1 hq_keys).2⟩
  simp only [roundStep, hcb, har, hmin, hfz]

/-- Once the history covers every variable of the registry, the forward
strategy offers no candidates, the round's rank map is empty, and `min`
raises its empty-sequence `ValueError`. -/
theorem roundStep_forward_exhausted {D : Type} (names : List String)
    (mk : Nat → Nat → D × D) (scoring_fn : D → D → ℚ) (strat : List ℚ → Nat)
    (imp : List Nat) (res : List (List (String × Nat × ℚ) × String))
    (hall : ∀ v, v < names.length → v ∈ imp) :
    roundStep (forwardStrategy names.length mk) scoring_fn strat names 1 (imp, res)
      = .error (.valueError "min() arg is an empty sequence") := by
  have hemp : ∀ i, forwardStrategy names.length mk imp i = [] := by
    intro i
    rw [forwardStrategy, List.map_eq_nil_iff, List.filter_eq_nil_iff]
    intro v hvr
    simp [hall v (List.mem_range.mp hvr)]
  have hcb : collectBootstraps (forwardStrategy names.length mk) scoring_fn imp 1
      = .ok [] := by
    simp [collectBootstraps, collectBootstrapsAux, mergeOne,
      _singlethread_iteration, hemp]
  simp [roundStep, hcb,
    show add_ranks_to_dict [] names strat = some [] from rfl, pyMinByRank]

/-- Any run of more rounds than there are unused variables ends in the
empty-sequence `ValueError` of `min` over the exhausted round's empty rank
map. -/
theorem selectionRounds_forward_exhaust {D : Type} (names : List String)
    (mk : Nat → Nat → D × D) (scoring_fn : D → D → ℚ) (strat : List ℚ → Nat)
    (hnames : names.Nodup)
    (Hstrat : ∀ l : List ℚ, 1 < l.length → strat l < l.length) :
    ∀ (k : Nat) (imp : List Nat) (res : List (List (String × Nat × ℚ) × String)),
      imp.Nodup → (∀ v ∈ imp, v < names.length) →
      names.length - imp.length < k →
      selectionRounds (forwardStrategy names.length mk) scoring_fn strat names 1 k
          (imp, res)
        = .error (.valueError "min() arg is an empty sequence") := by
  intro k
  induction k with
  | zero => intro imp res _ _ hlt; omega
  | succ k ih =>
      intro imp res hnd hb hlt
      by_cases hex : ∃ v, v < names.length ∧ v ∉ imp
      · obtain ⟨bi, st2, hrs, hbiN, hbi⟩ :=
          roundStep_forward_success names mk scoring_fn strat hnames Hstrat imp res hex
        have himplen : imp.length < names.length := by
          obtain ⟨v, hvN, hv⟩ := hex
          have h1 : imp.toFinset ⊆ (Finset.range names.length).erase v := by
            intro x hx
            rw [List.mem_toFinset] at hx
            refine Finset.mem_erase.mpr ⟨?_, Finset.mem_range.mpr (hb x hx)⟩
            intro hc
            exact hv (hc ▸ hx)
          have h2 := Finset.card_le_card h1
          rw [List.toFinset_card_of_nodup hnd,
            Finset.card_erase_of_mem (Finset.mem_range.mpr hvN),
            Finset.card_range] at h2
          omega
        rw [show selectionRounds (forwardStrategy names.length mk) scoring_fn strat
            names 1 (k + 1) (imp, res)
            = selectionRounds (forwardStrategy names.length mk) scoring_fn strat
              names 1 k (imp ++ [bi], res ++ [st2]) from by
          simp only [selectionRounds, hrs]]
        refine ih (imp ++ [bi]) (res ++ [st2]) ?_ ?_ (by simp; omega)
        · simp [List.nodup_append, hnd, hbi]
        · intro v hvmem
          rcases List.mem_append.mp hvmem with h1 | h2
          · exact hb v h1
          · rw [List.mem_singleton.mp h2]
            exact hbiN
      · push_neg at hex
        have hstep := roundStep_forward_exhausted names mk scoring_fn strat imp res hex
        simp only [selectionRounds, hstep]

/-! ### Claim theorems -/

/-- C7: a negative worker count resolves to host concurrency plus the
value — in particular -1 on an 8-unit host gives 7 — and a positive worker
count is kept unchanged (src/sequential_selection.py line 64). -/
theorem njobs_resolution (cpu_count : Nat) (n m : Int) (hn : n < 0) (hm : 0 < m) :
    resolve_njobs cpu_count n = (cpu_count : Int) + n ∧
    resolve_njobs cpu_count m = m ∧
    resolve_njobs 8 (-1) = 7 := by
  refine ⟨?_, ?_, ?_⟩
  · simp [resolve_njobs, le_of_lt hn]
  · have : ¬ m ≤ 0 := by omega
    simp [resolve_njobs, this]
  · rfl

/-- Witness for C7 at cpu_count = 8, n = -1, m = 3. -/
theorem njobs_resolution_witness :
    resolve_njobs 8 (-1) = ((8 : Nat) : Int) + (-1) ∧
    resolve_njobs 8 3 = 3 ∧
    resolve_njobs 8 (-1) = 7 :=
  njobs_resolution 8 (-1) 3 (by decide) (by decide)

/-- C9: a worker count of exactly 0 also triggers the resolution branch
(the condition is `njobs <= 0`, not strict negativity), giving host
concurrency + 0; 0 never means zero workers. -/
theorem njobs_zero (cpu_count : Nat) :
    resolve_njobs cpu_count 0 = (cpu_count : Int) := by
  simp [resolve_njobs]

/-- C10: on the empty score input the Ranking Aggregator returns the empty
rank map before the loop, leaving the input list untouched and never
invoking the comparator (`convertFull` counts comparator calls: 0 here). -/
theorem convert_empty_input (names : List String) (strat : List ℚ → Nat) :
    convertFull [] names strat = some ([], [], 0) := rfl

/-- C2: for every non-empty score input, valid comparator and resolvable,
pairwise-distinct variable names, the Ranking Aggregator succeeds and its
rank map assigns exactly the consecutive ranks 0 … n-1 (so the last
remaining entry receives the last rank), pairs every output variable with
its original input score, leaves exactly one entry in the pool and consults
the comparator n-1 times; and concretely the input {A: 0.9, B: 0.5, C: 0.7}
with the minimum-is-best comparator yields B=(0, 0.5), C=(1, 0.7),
A=(2, 0.9). -/
theorem ranking_aggregator_spec :
    (∀ (result : List (Nat × ℚ)) (names : List String) (strat : List ℚ → Nat),
      (∀ l : List ℚ, 1 < l.length → strat l < l.length) →
      result ≠ [] →
      (∀ q ∈ result, ∃ nm, names[q.1]? = some nm) →
      result.Pairwise (fun q q' => names[q.1]? ≠ names[q'.1]?) →
      ∃ d fin calls,
        convertFull result names strat = some (d, fin, calls) ∧
        convert_result_list_to_dict result names strat = some d ∧
        d.map (fun p => p.2.1) = List.range result.length ∧
        (∀ p ∈ d, ∃ q ∈ result, names[q.1]? = some p.1 ∧ p.2.2 = q.2) ∧
        fin.length = 1 ∧ calls = result.length - 1)
    ∧ convert_result_list_to_dict [(0, 9/10), (1, 1/2), (2, 7/10)]
        ["A", "B", "C"] argminQ
        = some [("B", (0, 1/2)), ("C", (1, 7/10)), ("A", (2, 9/10))] := by
  constructor
  · intro result names strat Hstrat hne hval hpw
    obtain ⟨d, fin, calls, hloop, hranks, hmemb, hfin, hcalls⟩ :=
      rankLoop_spec strat names Hstrat result.length result 0 [] 0 hne
        (le_refl _) hval hpw (by simp)
    have hlen0 : ¬ result.length = 0 := fun hc => hne (List.length_eq_zero.mp hc)
    have hconv : convertFull result names strat = some (d, fin, calls) := by
      simp only [convertFull, if_neg hlen0]
      simpa using hloop
    refine ⟨d, fin, calls, hconv, ?_, ?_, hmemb, hfin, by omega⟩
    · simp [convert_result_list_to_dict, hconv]
    · rw [List.range_eq_range']
      exact hranks
  · norm_num [convert_result_list_to_dict, convertFull, rankLoop, listPop,
      dictInsert, argminQ, argminQAux, List.eraseIdx]
    simp

/-- C8 counterexample: on the singleton input [(0, 5)] the loop body never
runs, nothing is popped, and the final state of the caller's list — the
middle component — is the input itself, unchanged. -/
theorem convert_singleton_unchanged :
    convertFull [(0, (5 : ℚ))] ["A"] argminQ
      = some ([("A", (0, 5))], [(0, (5 : ℚ))], 0) := by
  norm_num [convertFull, rankLoop, listPop, dictInsert]

/-- C8 (amended): the Ranking Aggregator pops every ranked entry from the
caller's list, draining it to exactly one remaining element; for inputs of
two or more entries the list is therefore mutated (shortened), while a
singleton input is left unchanged. -/
theorem convert_drains_input (result : List (Nat × ℚ)) (names : List String)
    (strat : List ℚ → Nat)
    (Hstrat : ∀ l : List ℚ, 1 < l.length → strat l < l.length)
    (hlen : 1 < result.length)
    (hval : ∀ q ∈ result, ∃ nm, names[q.1]? = some nm)
    (hpw : result.Pairwise (fun q q' => names[q.1]? ≠ names[q'.1]?)) :
    ∃ d fin calls, convertFull result names strat = some (d, fin, calls) ∧
      fin.length = 1 ∧ fin ≠ result := by
  have hne : result ≠ [] := by
    intro hc
    rw [hc] at hlen
    simp at hlen
  obtain ⟨d, fin, calls, hloop, hranks, hmemb, hfin, hcalls⟩ :=
    rankLoop_spec strat names Hstrat result.length result 0 [] 0 hne
      (le_refl _) hval hpw (by simp)
  have hlen0 : ¬ result.length = 0 := fun hc => hne (List.length_eq_zero.mp hc)
  refine ⟨d, fin, calls, ?_, hfin, ?_⟩
  · simp only [convertFull, if_neg hlen0]
    simpa using hloop
  · intro hc
    rw [hc] at hfin
    omega

/-- Witness for C8's amended theorem on a two-entry input. -/
theorem convert_drains_input_witness :
    ∃ d fin calls,
      convertFull [(0, (3 : ℚ)), (1, 4)] ["A", "B"] argminQ = some (d, fin, calls) ∧
      fin.length = 1 ∧ fin ≠ [(0, (3 : ℚ)), (1, 4)] :=
  convert_drains_input [(0, (3 : ℚ)), (1, 4)] ["A", "B"] argminQ
    argminQ_valid (by norm_num)
    (by
      intro q hq
      rcases List.mem_cons.mp hq with rfl | hq'
      · exact ⟨"A", rfl⟩
      · rcases List.mem_cons.mp hq' with rfl | hq''
        · exact ⟨"B", rfl⟩
        · cases hq'')
    (by simp)

/-- C4 counterexample: with one variable and a round count of two, the run
errors with the generic empty-sequence `ValueError` that `min` raises on
the empty rank map — not with an "exhausted candidates" error. -/
theorem exhausted_candidates_cex :
    sequential_selection (forwardStrategy 1 (fun _ _ => ((), ()))) (fun _ _ => (0 : ℚ))
        argminQ ["A"] 2 1 ((), ())
      = .error (.valueError "min() arg is an empty sequence") ∧
    sequential_selection (forwardStrategy 1 (fun _ _ => ((), ()))) (fun _ _ => (0 : ℚ))
        argminQ ["A"] 2 1 ((), ())
      ≠ .error .exhaustedCandidates := by
  constructor
  · rfl
  · intro hc
    rw [show sequential_selection (forwardStrategy 1 (fun _ _ => ((), ())))
        (fun _ _ => (0 : ℚ)) argminQ ["A"] 2 1 ((), ())
        = .error (.valueError "min() arg is an empty sequence") from rfl] at hc
    cases hc

/-- C4 (amended): for every registry of distinct variable names, every
valid comparator, every scoring function and data, whenever the requested
round count exceeds the number of available variables the run fails fast —
it never silently returns an incomplete result — but with the generic
`ValueError` of `min` over the first exhausted round's empty rank map
rather than a dedicated "exhausted candidates" error. -/
theorem exhausted_candidates_behavior {D : Type} (names : List String)
    (mk : Nat → Nat → D × D) (scoring_fn : D → D → ℚ) (strat : List ℚ → Nat)
    (baseline : D × D) (n : Nat)
    (hnames : names.Nodup)
    (Hstrat : ∀ l : List ℚ, 1 < l.length → strat l < l.length)
    (hn : names.length < n) :
    sequential_selection (forwardStrategy names.length mk) scoring_fn strat names n 1
        baseline
      = .error (.valueError "min() arg is an empty sequence") := by
  have hrounds := selectionRounds_forward_exhaust names mk scoring_fn strat hnames
    Hstrat n [] [] (by simp) (by simp) (by simpa using hn)
  simp only [sequential_selection, hrounds]

/-- Witness for C4's amended theorem: two distinct variables, three
requested rounds. -/
theorem exhausted_candidates_behavior_witness :
    sequential_selection (forwardStrategy (["A", "B"] : List String).length
        (fun _ _ => ((), ()))) (fun _ _ => (0 : ℚ)) argminQ ["A", "B"] 3 1 ((), ())
      = .error (.valueError "min() arg is an empty sequence") :=
  exhausted_candidates_behavior ["A", "B"] (fun _ _ => ((), ())) (fun _ _ => (0 : ℚ))
    argminQ ((), ()) 3 (by simp) argminQ_valid (by simp)

/-- C3: the multi-process scoring engine — modelled by draining the result
queue in an arbitrary arrival order, constrained to a permutation of the
once-per-triple scored pairs — produces, for every finite triple sequence
(with distinct variables) and every scoring function, exactly the same
variable→score mapping as the single-process engine, and the engine scores
exactly one pair per triple. -/
theorem engines_equivalent {D : Type} (it : List (Nat × D × D))
    (scoring_fn : D → D → ℚ) (arrival : List (Nat × ℚ))
    (hperm : arrival.Perm (scoredPairs it scoring_fn))
    (hnd : (it.map (fun t => t.1)).Nodup) :
    (scoredPairs it scoring_fn).length = it.length ∧
    ∀ k, dictGet (drainOutQueue arrival) k
      = dictGet (_singlethread_iteration it scoring_fn) k := by
  have hkeys : (scoredPairs it scoring_fn).map Prod.fst = it.map (fun t => t.1) := by
    simp [scoredPairs, List.map_map]
  have hnd1 : ((scoredPairs it scoring_fn).map Prod.fst).Nodup := by
    rw [hkeys]
    exact hnd
  have hnd2 : (arrival.map Prod.fst).Nodup := ((hperm.map Prod.fst).nodup_iff).mpr hnd1
  have hsingle : _singlethread_iteration it scoring_fn
      = drainOutQueue (scoredPairs it scoring_fn) := by
    unfold _singlethread_iteration drainOutQueue scoredPairs
    rw [List.foldl_map]
  have hdrain : drainOutQueue (scoredPairs it scoring_fn) = scoredPairs it scoring_fn :=
    foldl_insert_of_nodup _ [] (by simpa using hnd1)
  have hdrain2 : drainOutQueue arrival = arrival :=
    foldl_insert_of_nodup _ [] (by simpa using hnd2)
  refine ⟨by simp [scoredPairs], ?_⟩
  intro k
  rw [hdrain2, hsingle, hdrain]
  exact dictGet_perm hperm hnd2 k

/-- Witness for C3: three triples scored by projection, results arriving
out of order. -/
theorem engines_equivalent_witness :
    (scoredPairs [((0 : Nat), (1 : ℚ), 2), (1, 3, 4), (2, 5, 6)]
        (fun a _ => a)).length
      = [((0 : Nat), (1 : ℚ), 2), (1, 3, 4), (2, 5, 6)].length ∧
    ∀ k, dictGet (drainOutQueue [(2, (5 : ℚ)), (0, 1), (1, 3)]) k
      = dictGet (_singlethread_iteration [((0 : Nat), (1 : ℚ), 2), (1, 3, 4), (2, 5, 6)]
          (fun a _ => a)) k :=
  engines_equivalent [((0 : Nat), (1 : ℚ), 2), (1, 3, 4), (2, 5, 6)]
    (fun a _ => a) [(2, (5 : ℚ)), (0, 1), (1, 3)]
    ((List.Perm.swap (0, (1 : ℚ)) (2, (5 : ℚ)) [(1, 3)]).trans
      ((List.Perm.swap (1, (3 : ℚ)) (2, (5 : ℚ)) []).cons (0, 1)))
    (by decide)

/-- C1: in every completed round of sequential_selection (njobs = 1 path),
the per-variable scores collected over the nbootstrap passes are combined
by arithmetic mean (`npAverage` is sum over count), the averaged map is
ranked by the Ranking Aggregator with the comparator into ranks 0 … n-1,
the winner picked by `min` over ranks is precisely the variable holding
rank 0, and the round appends the winner's registry index to the
important-variable history and the (rank map, winner) pair to the
cumulative result. -/
theorem round_winner {D : Type}
    (selection_strategy : List Nat → Nat → List (Nat × D × D))
    (scoring_fn : D → D → ℚ) (strat : List ℚ → Nat) (names : List String)
    (nbootstrap : Nat) (imp : List Nat)
    (res : List (List (String × Nat × ℚ) × String))
    (st' : List Nat × List (List (String × Nat × ℚ) × String))
    (hnames : names.Nodup)
    (Hstrat : ∀ l : List ℚ, 1 < l.length → strat l < l.length)
    (hvars : ∀ i q, q ∈ selection_strategy imp i → q.1 < names.length)
    (hok : roundStep selection_strategy scoring_fn strat names nbootstrap (imp, res)
      = .ok st') :
    ∃ merged next_result best_var best_index s,
      collectBootstraps selection_strategy scoring_fn imp nbootstrap = .ok merged ∧
      (∀ p ∈ merged, npAverage p.2 = p.2.sum / p.2.length) ∧
      add_ranks_to_dict (merged.map (fun p => (p.1, npAverage p.2))) names strat
        = some next_result ∧
      pyMinByRank next_result = some best_var ∧
      next_result.map (fun p => p.2.1) = List.range next_result.length ∧
      dictGet next_result best_var = some (0, s) ∧
      flatnonzeroFirst names best_var = some best_index ∧
      st' = (imp ++ [best_index], res ++ [(next_result, best_var)]) := by
  obtain ⟨merged, nr, bv, bi, s, h1, h2, h3, h4, h5, h6, h7, h8⟩ :=
    roundStep_inv selection_strategy scoring_fn strat names nbootstrap imp res st'
      hnames Hstrat hvars hok
  exact ⟨merged, nr, bv, bi, s, h1, fun p _ => rfl, h2, h3, h4, h5, h6, h8⟩

/-- Witness for C1: a two-variable round with two bootstrap passes, scored
by projection; variable B (average 3/2) beats variable A (average 7/2)
under the minimum-is-best comparator. -/
theorem round_winner_witness :
    ∃ merged next_result best_var best_index s,
      collectBootstraps (fun _ i => [(0, (3 : ℚ) + i, 0), (1, 1 + i, 0)])
        (fun a _ => a) [] 2 = .ok merged ∧
      (∀ p ∈ merged, npAverage p.2 = p.2.sum / p.2.length) ∧
      add_ranks_to_dict (merged.map (fun p => (p.1, npAverage p.2))) ["A", "B"] argminQ
        = some next_result ∧
      pyMinByRank next_result = some best_var ∧
      next_result.map (fun p => p.2.1) = List.range next_result.length ∧
      dictGet next_result best_var = some (0, s) ∧
      flatnonzeroFirst ["A", "B"] best_var = some best_index ∧
      (([1], [([("B", (0, 3/2)), ("A", (1, 7/2))], "B")]) :
          List Nat × List (List (String × Nat × ℚ) × String))
        = ([] ++ [best_index], [] ++ [(next_result, best_var)]) :=
  round_winner (fun _ i => [(0, (3 : ℚ) + i, 0), (1, 1 + i, 0)]) (fun a _ => a)
    argminQ ["A", "B"] 2 [] []
    ([1], [([("B", (0, 3/2)), ("A", (1, 7/2))], "B")])
    (by simp)
    argminQ_valid
    (by
      intro i q hq
      rcases List.mem_cons.mp hq with rfl | hq'
      · simp
      · rcases List.mem_cons.mp hq' with rfl | hq''
        · simp
        · cases hq'')
    (by
      norm_num [roundStep, collectBootstraps, collectBootstrapsAux, mergeOne,
        _singlethread_iteration, dictInsert, dictGet, npAverage, add_ranks_to_dict,
        convert_result_list_to_dict, convertFull, rankLoop, listPop, argminQ,
        argminQAux, pyMinByRank, pyMinAux, flatnonzeroFirst, List.eraseIdx,
        List.foldlM_cons, List.foldlM_nil, Except.bind, Bind.bind, Pure.pure,
        Except.pure]
      simp [pyMinAux])

/-- C6: under distinct variable names and strategies that only offer
in-range variables outside the current history (as the spec-modelled
forward strategy does), after k completed rounds the important-variable
history is the starting history with exactly k entries appended —
append-only, earlier entries untouched — and it stays duplicate-free
whenever the starting history is. -/
theorem history_invariant {D : Type}
    (selection_strategy : List Nat → Nat → List (Nat × D × D))
    (scoring_fn : D → D → ℚ) (strat : List ℚ → Nat) (names : List String)
    (nbootstrap : Nat)
    (hnames : names.Nodup)
    (Hstrat : ∀ l : List ℚ, 1 < l.length → strat l < l.length)
    (hvars : ∀ imp i q, q ∈ selection_strategy imp i →
      q.1 < names.length ∧ q.1 ∉ imp) :
    ∀ (k : Nat) (st st' : List Nat × List (List (String × Nat × ℚ) × String)),
      selectionRounds selection_strategy scoring_fn strat names nbootstrap k st
        = .ok st' →
      ∃ new, st'.1 = st.1 ++ new ∧ new.length = k ∧
        (st.1.Nodup → st'.1.Nodup) := by
  intro k
  induction k with
  | zero =>
      intro st st' h
      simp only [selectionRounds] at h
      obtain rfl : st = st' := Except.ok.inj h
      exact ⟨[], by simp, rfl, fun hn => hn⟩
  | succ k ih =>
      intro st st' h
      obtain ⟨imp, res⟩ := st
      simp only [selectionRounds] at h
      cases hrs : roundStep selection_strategy scoring_fn strat names nbootstrap
          (imp, res) with
      | error e => rw [hrs] at h; cases h
      | ok st1 =>
          rw [hrs] at h
          obtain ⟨merged, nr, bv, bi, s, h1, h2, h3, h4, h5, h6, h7, h8⟩ :=
            roundStep_inv selection_strategy scoring_fn strat names nbootstrap imp
              res st1 hnames Hstrat (fun i q hq => (hvars imp i q hq).1) hrs
          obtain ⟨new', hgrow, hlen, hnd⟩ := ih st1 st' h
          have hbi_not : bi ∉ imp := by
            obtain ⟨j, q, hq, hq1⟩ := collectBootstraps_keys _ _ _ _ h1 bi h7
            exact hq1 ▸ (hvars imp j q hq).2
          refine ⟨bi :: new', ?_, by simp [hlen], ?_⟩
          · rw [hgrow, h8]
            simp
          · intro hnodup
            apply hnd
            rw [h8]
            simp [List.nodup_append, hnodup, hbi_not]

/-- Witness for C6: two completed rounds over two variables with the
spec-modelled forward strategy grow the history from [] to [0, 1]:
two entries, appended in order, no duplicates. -/
theorem history_invariant_witness :
    ∃ new,
      (([0, 1], [([("A", (0, 0)), ("B", (1, 1))], "A"), ([("B", (0, 1))], "B")]) :
          List Nat × List (List (String × Nat × ℚ) × String)).1
        = (([], []) : List Nat × List (List (String × Nat × ℚ) × String)).1 ++ new ∧
      new.length = 2 ∧
      ((([], []) : List Nat × List (List (String × Nat × ℚ) × String)).1.Nodup →
        (([0, 1], [([("A", (0, 0)), ("B", (1, 1))], "A"), ([("B", (0, 1))], "B")]) :
          List Nat × List (List (String × Nat × ℚ) × String)).1.Nodup) :=
  history_invariant (forwardStrategy 2 (fun v _ => ((v : ℚ), 0))) (fun a _ => a)
    argminQ ["A", "B"] 1 (by simp) argminQ_valid
    (forwardStrategy_vars 2 (fun v _ => ((v : ℚ), 0)))
    2 ([], [])
    ([0, 1], [([("A", (0, 0)), ("B", (1, 1))], "A"), ([("B", (0, 1))], "B")])
    (by
      norm_num [selectionRounds, roundStep, collectBootstraps, collectBootstrapsAux,
        mergeOne, _singlethread_iteration, dictInsert, dictGet, npAverage,
        add_ranks_to_dict, convert_result_list_to_dict, convertFull, rankLoop,
        listPop, argminQ, argminQAux, pyMinByRank, pyMinAux, flatnonzeroFirst,
        forwardStrategy, List.eraseIdx, List.foldlM_cons, List.foldlM_nil,
        Except.bind, Bind.bind, Pure.pure, Except.pure, List.range, List.range.loop]
      simp only [String.reduceEq, if_false, reduceIte]
      norm_num [selectionRounds, roundStep, collectBootstraps, collectBootstrapsAux,
        mergeOne, _singlethread_iteration, dictInsert, dictGet, npAverage,
        add_ranks_to_dict, convert_result_list_to_dict, convertFull, rankLoop,
        listPop, argminQ, argminQAux, pyMinByRank, pyMinAux, flatnonzeroFirst,
        forwardStrategy, List.eraseIdx, List.foldlM_cons, List.foldlM_nil,
        Except.bind, Bind.bind, Pure.pure, Except.pure, List.range, List.range.loop]
      rfl)

end PermImp
